import Mathlib

/-!
PSCX emulator: GTE divider and GPU value types

A shallow embedding of `pscx_gte_divider.cpp` (the fixed-point reciprocal
divider of the geometry coprocessor) and of the value types `HorizontalRes`
and `CommandBuffer` of `pscx_gpu.h`, followed by theorems about them.

Conventions of the embedding:

* unsigned machine integers are `Nat`, signed ones are `Int`; every place where
  the C++ code converts to a fixed-width type is an explicit reduction
  (`% 2 ^ w` for unsigned types, `toInt32` for `int32_t`);
* a loop is a structurally recursive function on a fuel argument that returns
  `none` when the fuel runs out;
* an array access outside the array returns `none`.
-/

namespace Pscx

/-! ## The divider (`pscx_gte_divider.cpp`) -/

/-- Unsigned Newtown-Raphson look up table (the `uint8_t` array of the source,
in source order, eight entries per row and one final entry). -/
def UNSIGNED_NEWTOWN_RAPHSON_TABLE : List Nat := [
  0xff, 0xfd, 0xfb, 0xf9, 0xf7, 0xf5, 0xf3, 0xf1,
  0xef, 0xee, 0xec, 0xea, 0xe8, 0xe6, 0xe4, 0xe3,
  0xe1, 0xdf, 0xdd, 0xdc, 0xda, 0xd8, 0xd6, 0xd5,
  0xd3, 0xd1, 0xd0, 0xce, 0xcd, 0xcb, 0xc9, 0xc8,
  0xc6, 0xc5, 0xc3, 0xc1, 0xc0, 0xbe, 0xbd, 0xbb,
  0xba, 0xb8, 0xb7, 0xb5, 0xb4, 0xb2, 0xb1, 0xb0,
  0xae, 0xad, 0xab, 0xaa, 0xa9, 0xa7, 0xa6, 0xa4,
  0xa3, 0xa2, 0xa0, 0x9f, 0x9e, 0x9c, 0x9b, 0x9a,
  0x99, 0x97, 0x96, 0x95, 0x94, 0x92, 0x91, 0x90,
  0x8f, 0x8d, 0x8c, 0x8b, 0x8a, 0x89, 0x87, 0x86,
  0x85, 0x84, 0x83, 0x82, 0x81, 0x7f, 0x7e, 0x7d,
  0x7c, 0x7b, 0x7a, 0x79, 0x78, 0x77, 0x75, 0x74,
  0x73, 0x72, 0x71, 0x70, 0x6f, 0x6e, 0x6d, 0x6c,
  0x6b, 0x6a, 0x69, 0x68, 0x67, 0x66, 0x65, 0x64,
  0x63, 0x62, 0x61, 0x60, 0x5f, 0x5e, 0x5d, 0x5d,
  0x5c, 0x5b, 0x5a, 0x59, 0x58, 0x57, 0x56, 0x55,
  0x54, 0x53, 0x53, 0x52, 0x51, 0x50, 0x4f, 0x4e,
  0x4d, 0x4d, 0x4c, 0x4b, 0x4a, 0x49, 0x48, 0x48,
  0x47, 0x46, 0x45, 0x44, 0x43, 0x43, 0x42, 0x41,
  0x40, 0x3f, 0x3f, 0x3e, 0x3d, 0x3c, 0x3c, 0x3b,
  0x3a, 0x39, 0x39, 0x38, 0x37, 0x36, 0x36, 0x35,
  0x34, 0x33, 0x33, 0x32, 0x31, 0x31, 0x30, 0x2f,
  0x2e, 0x2e, 0x2d, 0x2c, 0x2c, 0x2b, 0x2a, 0x2a,
  0x29, 0x28, 0x28, 0x27, 0x26, 0x26, 0x25, 0x24,
  0x24, 0x23, 0x22, 0x22, 0x21, 0x20, 0x20, 0x1f,
  0x1e, 0x1e, 0x1d, 0x1d, 0x1c, 0x1b, 0x1b, 0x1a,
  0x19, 0x19, 0x18, 0x18, 0x17, 0x16, 0x16, 0x15,
  0x15, 0x14, 0x14, 0x13, 0x12, 0x12, 0x11, 0x11,
  0x10, 0x0f, 0x0f, 0x0e, 0x0e, 0x0d, 0x0d, 0x0c,
  0x0c, 0x0b, 0x0a, 0x0a, 0x09, 0x09, 0x08, 0x08,
  0x07, 0x07, 0x06, 0x06, 0x05, 0x05, 0x04, 0x04,
  0x03, 0x03, 0x02, 0x02, 0x01, 0x01, 0x00, 0x00,
  0x00]

/-- Conversion of an integer to `int32_t`: the representative of `x` modulo
`2 ^ 32` in the range `-2 ^ 31 ≤ r < 2 ^ 31`. -/
def toInt32 (x : Int) : Int := (x + 2 ^ 31) % 2 ^ 32 - 2 ^ 31

/-- Conversion of an integer to `uint32_t`. -/
def toUInt32 (x : Int) : Nat := (x % 2 ^ 32).toNat

/-- The `while` loop of `calculateLeadingZeros` on a `totalBits`-wide unsigned
value: as long as the top bit of `inputValue` is clear, shift it left by one
(the result is stored back into the `totalBits`-wide variable) and count.
`none` when the fuel is used up before the loop exits. -/
def calculateLeadingZerosLoop (totalBits : Nat) : Nat → Nat → Nat → Option Nat
  | 0, _, _ => none
  | fuel + 1, inputValue, numLeadingZeros =>
    if inputValue &&& (1 <<< (totalBits - 1)) = 0 then
      calculateLeadingZerosLoop totalBits fuel
        ((inputValue <<< 1) % 2 ^ totalBits) (numLeadingZeros + 1)
    else
      some numLeadingZeros

/-- The template `calculateLeadingZeros<T>` for an unsigned type `T` of
`totalBits = sizeof(T) * 8` bits. The loop is given `totalBits` iterations of
fuel. -/
def calculateLeadingZeros (totalBits : Nat) (value : Nat) : Option Nat :=
  if value = 0 then some totalBits
  else calculateLeadingZerosLoop totalBits totalBits value 0

/-- The local `index` of `calculateReciprocal`, stored in a `uint16_t`. -/
def calculateReciprocalIndex (divisor : Nat) : Nat :=
  (((divisor &&& 0x7fff) + 0x40) >>> 7) % 2 ^ 16

/-- The function `calculateReciprocal(uint16_t divisor)`; `factor`, `divisorSigned` and every intermediate result of the
returned expression are `int32_t`; `>>>` on `Int` with a `Nat` shift count is
the arithmetic shift (rounding towards minus infinity); the result is converted
to `uint32_t`. `none` when the table is read outside its bounds. -/
def calculateReciprocal (divisor : Nat) : Option Nat :=
  let index := calculateReciprocalIndex divisor
  match UNSIGNED_NEWTOWN_RAPHSON_TABLE[index]? with
  | none => none
  | some entry =>
    let factor : Int := toInt32 (Int.ofNat entry + 0x101)
    let divisorSigned : Int := toInt32 (Int.ofNat (divisor ||| 0x8000))
    let product : Int := toInt32 (divisorSigned * toInt32 (-factor))
    let correction : Int := toInt32 (product + 0x80) >>> (8 : Nat)
    let inner : Int := toInt32 (0x20000 + correction)
    some (toUInt32 (toInt32 (toInt32 (factor * inner) + 0x80) >>> (8 : Nat)))

/-- The function `divide(uint16_t numerator, uint16_t divisor)`. The template
argument of `calculateLeadingZeros` is deduced as `uint16_t`; the shifted
numerator, the reciprocal and the product are `uint64_t`, the shifted divisor
is stored in a `uint16_t`. -/
def divide (numerator divisor : Nat) : Option Nat :=
  match calculateLeadingZeros 16 divisor with
  | none => none
  | some shift =>
    let numeratorShifted := (numerator <<< shift) % 2 ^ 64
    let divisorShifted := (divisor <<< shift) % 2 ^ 16
    match calculateReciprocal divisorShifted with
    | none => none
    | some reciprocal =>
      let reciprocalShifted := ((numeratorShifted * reciprocal + 0x8000) % 2 ^ 64) >>> 16
      if reciprocalShifted ≤ 0x1ffff then some reciprocalShifted else some 0x1ffff


/-- The value of `calculateReciprocal` written over the natural numbers, for a
table entry `entry` and the divisor with its top bit forced, `divisorSigned`:
`floor((-(x * f) + 0x80) / 256)` is `-((x * f + 127) / 256)`. Used to state
and check bounds; `calculateReciprocal_eq` relates it to the `int32_t` code. -/
def reciprocalNat (entry divisorSigned : Nat) : Nat :=
  ((entry + 0x101) * (0x20000 - (divisorSigned * (entry + 0x101) + 127) / 256) + 0x80) / 256

/-- The formula of `calculateReciprocal` as the specification writes it,
evaluated over unbounded integers:
`(factor * (0x20000 + floor((-(divisor | 0x8000) * factor + 0x80) / 256)) + 0x80) div 256`
with `factor = table[index] + 0x101`. Division of an `Int` by the positive
literal 256 rounds towards minus infinity. -/
def calculateReciprocalExact (divisor : Nat) : Option Int :=
  match UNSIGNED_NEWTOWN_RAPHSON_TABLE[calculateReciprocalIndex divisor]? with
  | none => none
  | some entry =>
    let factor : Int := Int.ofNat entry + 0x101
    some ((factor * (0x20000 + (-(Int.ofNat (divisor ||| 0x8000)) * factor + 0x80) / 256)
      + 0x80) / 256)

/-- The values that the expression of `calculateReciprocal` passes through, for
a table entry and a divisor, computed over unbounded integers: `factor`,
`divisorSigned`, `-factor`, the product, the product plus `0x80`, its shift,
the sum with `0x20000`, the second product, that plus `0x80`, and its shift. -/
def reciprocalIntermediates (entry divisor : Nat) : List Int :=
  let factor : Int := Int.ofNat entry + 0x101
  let divisorSigned : Int := Int.ofNat (divisor ||| 0x8000)
  let product : Int := divisorSigned * (-factor)
  let correction : Int := (product + 0x80) / 256
  let inner : Int := 0x20000 + correction
  [factor, divisorSigned, -factor, product, product + 0x80, correction, inner,
    factor * inner, factor * inner + 0x80, (factor * inner + 0x80) / 256]

/-- Check of a predicate on the block of `2 ^ k` consecutive numbers from `lo`. -/
def allBlock (p : Nat → Bool) : Nat → Nat → Bool
  | 0, lo => p lo
  | k + 1, lo => allBlock p k lo && allBlock p k (lo + 2 ^ k)

/-- Check of `ok entry (divisor + 0x40)` for every table entry and each of the 128
values `divisor + 0x40` in `[lo + 128 * i, lo + 128 * i + 127]` that select the
`i`-th entry of the list. -/
def checkTable (ok : Nat → Nat → Bool) : List Nat → Nat → Bool
  | [], _ => true
  | entry :: rest, lo => allBlock (ok entry) 7 lo && checkTable ok rest (lo + 128)

/-- Bounds on the reciprocal `R` of a normalized divisor `D` that the theorems
on `divide` use: its range, and how far `D * R` can fall below `2 ^ 32`. -/
def ReciprocalBounds (D R : Nat) : Prop :=
  0x10000 ≤ R ∧ R ≤ 0x20000 ∧ 2 ^ 32 - 114688 ≤ D * R ∧
    (D % 2 = 0 → 2 ^ 32 - 16384 ≤ (D + 1) * R)

/-- The check of `ReciprocalBounds` in the form `checkTable` takes: `x` is the
normalized divisor plus `0x40`, `entry` the table entry it selects. Values of
`x` outside `[0x8040, 0x1003f]` belong to no normalized divisor and pass. -/
def reciprocalBoundsOk (entry x : Nat) : Bool :=
  Nat.ble x 0x803f || Nat.ble 0x10040 x ||
    (Nat.ble 0x10000 (reciprocalNat entry (x - 0x40)) &&
      Nat.ble (reciprocalNat entry (x - 0x40)) 0x20000 &&
      Nat.ble 4294852608 ((x - 0x40) * reciprocalNat entry (x - 0x40)) &&
      (Nat.ble 1 ((x - 0x40) % 2) ||
        Nat.ble 4294950912 ((x - 0x40 + 1) * reciprocalNat entry (x - 0x40))))

/-! ## GPU value types (`pscx_gpu.h`) -/

/-- Depth of the pixel values in a texture page. -/
inductive TextureDepth where
  | TEXTURE_DEPTH_4_BIT
  | TEXTURE_DEPTH_8_BIT
  | TEXTURE_DEPTH_15_BIT
  deriving DecidableEq, Repr

/-- Interlaced output splits each frame in two fields. -/
inductive Field where
  | FIELD_TOP
  | FIELD_BOTTOM
  deriving DecidableEq, Repr

/-- Video output horizontal resolution: the `uint8_t` member `m_horizontalRes`. -/
structure HorizontalRes where
  m_horizontalRes : Nat
  deriving DecidableEq, Repr

/-- The constructor `HorizontalRes(uint8_t hr)`: the argument is converted to
`uint8_t`. -/
def HorizontalRes.new (hr : Nat) : HorizontalRes :=
  { m_horizontalRes := hr % 2 ^ 8 }

/-- The static method `createFromFields(uint8_t hr1, uint8_t hr2)`. -/
def HorizontalRes.createFromFields (hr1 hr2 : Nat) : HorizontalRes :=
  HorizontalRes.new ((hr2 &&& 1) ||| ((hr1 &&& 3) <<< 1))

/-- The method `intoStatus()`: the member widened to `uint32_t` and shifted. -/
def HorizontalRes.intoStatus (self : HorizontalRes) : Nat :=
  (self.m_horizontalRes <<< 16) % 2 ^ 32

/-- The method `dotclockDivider()`. The local starts at 1; a `switch` value
without a `case` leaves it unchanged. -/
def HorizontalRes.dotclockDivider (self : HorizontalRes) : Nat :=
  let hr1 := ((self.m_horizontalRes >>> 1) &&& 0x3) % 2 ^ 8
  let hr2 := (self.m_horizontalRes &&& 1) % 2 ^ 8
  let dotclockDivider := 1
  if hr2 ≠ 0 then
    7
  else
    match hr1 with
    | 0 => 10
    | 1 => 8
    | 2 => 5
    | 3 => 4
    | _ => dotclockDivider

/-- Video output vertical resolution. -/
inductive VerticalRes where
  | VERTICAL_RES_240_LINES
  | VERTICAL_RES_480_LINES
  deriving DecidableEq, Repr

/-- Video modes. -/
inductive VMode where
  | VMODE_NTSC
  | VMODE_PAL
  deriving DecidableEq, Repr

/-- Display area color depth. -/
inductive DisplayDepth where
  | DISPLAY_DEPTH_15_BITS
  | DISPLAY_DEPTH_24_BITS
  deriving DecidableEq, Repr

/-- Requested DMA direction. -/
inductive DmaDirection where
  | DMA_DIRECTION_OFF
  | DMA_DIRECTION_FIFO
  | DMA_DIRECTION_CPU_TO_GP0
  | DMA_DIRECTION_VRAM_TO_CPU
  deriving DecidableEq, Repr

/-- Hardware type (PAL or NTSC). -/
inductive HardwareType where
  | HARDWARE_TYPE_NTSC
  | HARDWARE_TYPE_PAL
  deriving DecidableEq, Repr

/-- Buffer holding multi-word fixed-length GP0 command parameters:
`uint32_t m_buffer[12]` and the `uint8_t` counter `m_len`. -/
structure CommandBuffer where
  m_buffer : Fin 12 → Nat
  m_len : Nat

/-- The constructor `CommandBuffer()`: `memset` of the buffer to zero, length 0. -/
def CommandBuffer.new : CommandBuffer :=
  { m_buffer := fun _ => 0x0, m_len := 0x0 }

/-- The method `clear()`. -/
def CommandBuffer.clear (self : CommandBuffer) : CommandBuffer :=
  { self with m_len := 0x0 }

/-- The method `pushWord(uint32_t word)`; `_countof(m_buffer)` is 12 and the
increment of `m_len` is an increment of a `uint8_t`. -/
def CommandBuffer.pushWord (self : CommandBuffer) (word : Nat) : CommandBuffer :=
  if h : self.m_len ≥ 12 then self
  else
    { m_buffer := Function.update self.m_buffer ⟨self.m_len, by omega⟩ word
      m_len := (self.m_len + 1) % 2 ^ 8 }

/-- The indexed read `operator[](size_t idx)`; `none` outside the array. -/
def CommandBuffer.get (self : CommandBuffer) (idx : Nat) : Option Nat :=
  if h : idx < 12 then some (self.m_buffer ⟨idx, h⟩) else none

/-- A sequence of `pushWord` calls, first word first. -/
def CommandBuffer.pushWords (self : CommandBuffer) (words : List Nat) : CommandBuffer :=
  words.foldl CommandBuffer.pushWord self

/-- One operation on a `CommandBuffer` that changes it. -/
inductive CommandBufferOp where
  | pushWord (word : Nat)
  | clear

/-- The effect of one operation. -/
def CommandBuffer.apply (self : CommandBuffer) : CommandBufferOp → CommandBuffer
  | .pushWord word => self.pushWord word
  | .clear => self.clear

/-- Possible states for the GP0 command register. -/
inductive Gp0Mode where
  | GP0_MODE_COMMAND
  | GP0_MODE_IMAGE_LOAD
  deriving DecidableEq, Repr

/-- The targets of the member-function pointer `m_gp0CommandMethod` that the
constructor can store. -/
inductive Gp0CommandMethod where
  | gp0Nop
  deriving DecidableEq, Repr

/-- The data members of `Gpu` that the constructor initialises (the renderer is
an external collaborator and is left out). -/
structure Gpu where
  m_pageBaseX : Nat
  m_pageBaseY : Nat
  m_rectangleTextureXFlip : Bool
  m_rectangleTextureYFlip : Bool
  m_semiTransparency : Nat
  m_textureDepth : TextureDepth
  m_textureWindowXMask : Nat
  m_textureWindowYMask : Nat
  m_textureWindowXOffset : Nat
  m_textureWindowYOffset : Nat
  m_dithering : Bool
  m_drawToDisplay : Bool
  m_forceSetMaskBit : Bool
  m_preserveMaskedPixels : Bool
  m_drawingAreaLeft : Nat
  m_drawingAreaTop : Nat
  m_drawingAreaRight : Nat
  m_drawingAreaBottom : Nat
  m_field : Field
  m_textureDisable : Bool
  m_hres : HorizontalRes
  m_vres : VerticalRes
  m_vmode : VMode
  m_displayDepth : DisplayDepth
  m_interlaced : Bool
  m_displayDisabled : Bool
  m_displayVramXStart : Nat
  m_displayVramYStart : Nat
  m_displayHorizStart : Nat
  m_displayHorizEnd : Nat
  m_displayLineStart : Nat
  m_displayLineEnd : Nat
  m_dmaDirection : DmaDirection
  m_gp0Command : CommandBuffer
  m_gp0WordsRemaining : Nat
  m_gp0CommandMethod : Gp0CommandMethod
  m_gp0Mode : Gp0Mode
  m_gp0Interrupt : Bool
  m_vblankInterrupt : Bool
  m_gpuClockPhase : Nat
  m_displayLine : Nat
  m_displayLineTick : Nat
  m_hardwareType : HardwareType

/-- The constructor `Gpu(HardwareType hardwareType)`; `m_gp0Command` is
default-constructed. -/
def Gpu.new (hardwareType : HardwareType) : Gpu :=
  { m_pageBaseX := 0x0
    m_pageBaseY := 0x0
    m_rectangleTextureXFlip := false
    m_rectangleTextureYFlip := false
    m_semiTransparency := 0x0
    m_textureDepth := TextureDepth.TEXTURE_DEPTH_4_BIT
    m_textureWindowXMask := 0x0
    m_textureWindowYMask := 0x0
    m_textureWindowXOffset := 0x0
    m_textureWindowYOffset := 0x0
    m_dithering := false
    m_drawToDisplay := false
    m_forceSetMaskBit := false
    m_preserveMaskedPixels := false
    m_drawingAreaLeft := 0x0
    m_drawingAreaTop := 0x0
    m_drawingAreaRight := 0x0
    m_drawingAreaBottom := 0x0
    m_field := Field.FIELD_TOP
    m_textureDisable := false
    m_hres := HorizontalRes.createFromFields 0x0 0x0
    m_vres := VerticalRes.VERTICAL_RES_240_LINES
    m_vmode := VMode.VMODE_NTSC
    m_displayDepth := DisplayDepth.DISPLAY_DEPTH_15_BITS
    m_interlaced := false
    m_displayDisabled := true
    m_displayVramXStart := 0x0
    m_displayVramYStart := 0x0
    m_displayHorizStart := 0x200
    m_displayHorizEnd := 0xc00
    m_displayLineStart := 0x10
    m_displayLineEnd := 0x100
    m_dmaDirection := DmaDirection.DMA_DIRECTION_OFF
    m_gp0Command := CommandBuffer.new
    m_gp0WordsRemaining := 0x0
    m_gp0CommandMethod := Gp0CommandMethod.gp0Nop
    m_gp0Mode := Gp0Mode.GP0_MODE_COMMAND
    m_gp0Interrupt := false
    m_vblankInterrupt := false
    m_gpuClockPhase := 0x0
    m_displayLine := 0x0
    m_displayLineTick := 0x0
    m_hardwareType := hardwareType }

/-! ## Lemmas on the divider -/

theorem and_top_bit16 (x : Nat) (hx : x < 2 ^ 16) :
    (x &&& (1 <<< (16 - 1)) = 0) ↔ x < 2 ^ 15 := by
  have h1 : (1 <<< (16 - 1) : Nat) = 2 ^ 15 := by decide
  rw [h1, Nat.and_two_pow]
  constructor
  · intro h
    by_contra hge
    have hb : x.testBit 15 = true := by
      rw [Nat.testBit_to_div_mod]
      exact decide_eq_true (by omega)
    rw [hb] at h
    simp at h
  · intro h
    rw [Nat.testBit_lt_two_pow h]
    simp

theorem calculateLeadingZerosLoop_spec (j : Nat) :
    ∀ (fuel x n : Nat), j ≤ 15 → j < fuel → 2 ^ (15 - j) ≤ x → x < 2 ^ (16 - j) →
      calculateLeadingZerosLoop 16 fuel x n = some (n + j) := by
  induction j with
  | zero =>
    intro fuel x n _ hf hlo hhi
    obtain ⟨f, rfl⟩ : ∃ f, fuel = f + 1 := ⟨fuel - 1, by omega⟩
    have hnot : ¬ (x &&& (1 <<< (16 - 1)) = 0) := by
      rw [and_top_bit16 x (by simpa using hhi)]
      simpa using hlo
    simp only [calculateLeadingZerosLoop, hnot, if_false, Nat.add_zero]
  | succ j ih =>
    intro fuel x n hj hf hlo hhi
    obtain ⟨f, rfl⟩ : ∃ f, fuel = f + 1 := ⟨fuel - 1, by omega⟩
    have e1 : 16 - (j + 1) = 15 - j := by omega
    have e2 : 2 ^ (15 - j) = 2 * 2 ^ (15 - (j + 1)) := by
      rw [← pow_succ']; congr 1; omega
    have e3 : 2 ^ (16 - j) = 2 * 2 ^ (15 - j) := by
      rw [← pow_succ']; congr 1; omega
    have hle : 2 ^ (15 - j) ≤ 2 ^ 15 := Nat.pow_le_pow_right (by decide) (by omega)
    rw [e1] at hhi
    have hx16 : x < 2 ^ 16 := by omega
    have hyes : x &&& (1 <<< (16 - 1)) = 0 := by
      rw [and_top_bit16 x hx16]; omega
    have hsh : (x <<< 1) % 2 ^ 16 = 2 * x := by
      rw [Nat.shiftLeft_eq, Nat.mod_eq_of_lt] <;> omega
    simp only [calculateLeadingZerosLoop, hyes, if_true, hsh]
    rw [ih f (2 * x) (n + 1) (by omega) (by omega) (by omega) (by omega)]
    congr 1; omega

theorem calculateLeadingZeros_of_range (d k : Nat) (hk : k ≤ 15) (hlo : 2 ^ k ≤ d)
    (hhi : d < 2 ^ (k + 1)) : calculateLeadingZeros 16 d = some (15 - k) := by
  have h0 : d ≠ 0 := by
    have : 0 < 2 ^ k := by positivity
    omega
  unfold calculateLeadingZeros
  rw [if_neg h0, calculateLeadingZerosLoop_spec (15 - k) 16 d 0 (by omega) (by omega)
    (by rw [show 15 - (15 - k) = k by omega]; exact hlo)
    (by rw [show 16 - (15 - k) = k + 1 by omega]; exact hhi)]
  simp

theorem normalized_of_range (d k : Nat) (hk : k ≤ 15) (hlo : 2 ^ k ≤ d)
    (hhi : d < 2 ^ (k + 1)) : 2 ^ 15 ≤ d * 2 ^ (15 - k) ∧ d * 2 ^ (15 - k) < 2 ^ 16 := by
  constructor
  · calc 2 ^ 15 = 2 ^ k * 2 ^ (15 - k) := by rw [← pow_add]; congr 1; omega
      _ ≤ d * 2 ^ (15 - k) := Nat.mul_le_mul_right _ hlo
  · calc d * 2 ^ (15 - k) < 2 ^ (k + 1) * 2 ^ (15 - k) :=
          Nat.mul_lt_mul_of_pos_right hhi (by positivity)
      _ = 2 ^ 16 := by rw [← pow_add]; congr 1; omega

theorem exists_range (d : Nat) (h0 : d ≠ 0) (hd : d < 2 ^ 16) :
    ∃ k, k ≤ 15 ∧ 2 ^ k ≤ d ∧ d < 2 ^ (k + 1) := by
  have hk : Nat.log 2 d < 16 := Nat.log_lt_of_lt_pow h0 hd
  exact ⟨Nat.log 2 d, by omega, Nat.pow_log_le_self 2 h0,
    Nat.lt_pow_succ_log_self (by decide) d⟩

theorem toInt32_of_range (x : Int) (h1 : -2147483648 ≤ x) (h2 : x < 2147483648) :
    toInt32 x = x := by
  unfold toInt32
  omega

theorem table_lookup (i : Nat) (hi : i ≤ 256) :
    ∃ e, UNSIGNED_NEWTOWN_RAPHSON_TABLE[i]? = some e ∧ e ≤ 255 := by
  have hlen : UNSIGNED_NEWTOWN_RAPHSON_TABLE.length = 257 := by decide!
  have hall : ∀ e ∈ UNSIGNED_NEWTOWN_RAPHSON_TABLE, e ≤ 255 := by decide!
  have hlt : i < UNSIGNED_NEWTOWN_RAPHSON_TABLE.length := by omega
  refine ⟨UNSIGNED_NEWTOWN_RAPHSON_TABLE[i], List.getElem?_eq_getElem hlt, ?_⟩
  exact hall _ (List.getElem_mem hlt)

theorem reciprocal_int_eq (e x : Nat) (he : e ≤ 255) (hx1 : 32768 ≤ x) (hx2 : x ≤ 65535) :
    toUInt32 (toInt32 (toInt32 (toInt32 (Int.ofNat e + 0x101) *
      toInt32 (0x20000 + toInt32 (toInt32 (toInt32 (Int.ofNat x) *
        toInt32 (-toInt32 (Int.ofNat e + 0x101))) + 0x80) >>> (8 : Nat))) + 0x80) >>> (8 : Nat))
      = reciprocalNat e x := by
  have hf : toInt32 (Int.ofNat e + 0x101) = ((e + 257 : Nat) : Int) := by
    rw [toInt32_of_range] <;> simp <;> omega
  have hnf : toInt32 (-((e + 257 : Nat) : Int)) = -((e + 257 : Nat) : Int) := by
    rw [toInt32_of_range] <;> omega
  have hx : toInt32 (Int.ofNat x) = (x : Int) := by
    rw [toInt32_of_range] <;> simp <;> omega
  have hPle : x * (e + 257) ≤ 65535 * 512 := Nat.mul_le_mul hx2 (by omega)
  have hPge : 32768 * 257 ≤ x * (e + 257) := Nat.mul_le_mul hx1 (by omega)
  generalize hP : x * (e + 257) = P at hPle hPge
  have hprod : (x : Int) * -((e + 257 : Nat) : Int) = -(P : Int) := by
    rw [← hP]; push_cast; ring
  have hI : (0x20000 : Int) + (-(P : Int) + 0x80) >>> (8 : Nat)
      = ((0x20000 - (P + 127) / 256 : Nat) : Int) := by
    rw [Int.shiftRight_eq_div_pow]
    norm_num
    omega
  have hIle : 0x20000 - (P + 127) / 256 ≤ 0x20000 := by omega
  generalize hIdef : 0x20000 - (P + 127) / 256 = I at hI hIle
  have hQle : (e + 257) * I ≤ 512 * 0x20000 := Nat.mul_le_mul (by omega) hIle
  generalize hQ : (e + 257) * I = Q at hQle
  have hq : ((e + 257 : Nat) : Int) * (I : Int) = (Q : Int) := by
    rw [← hQ]; push_cast; ring
  rw [hf, hnf, hx, hprod, toInt32_of_range (-(P : Int)) (by omega) (by omega),
    toInt32_of_range (-(P : Int) + 0x80) (by omega) (by omega), hI,
    toInt32_of_range (I : Int) (by omega) (by omega), hq,
    toInt32_of_range (Q : Int) (by omega) (by omega),
    toInt32_of_range ((Q : Int) + 0x80) (by omega) (by omega)]
  unfold toUInt32 reciprocalNat
  rw [Int.shiftRight_eq_div_pow, hP, hIdef, hQ]
  norm_num
  omega

theorem and_7fff (D : Nat) : D &&& 0x7fff = D % 0x8000 :=
  Nat.and_pow_two_sub_one_eq_mod D 15

theorem or_8000 (D : Nat) (hD : D < 2 ^ 16) : D ||| 0x8000 = D % 0x8000 + 0x8000 := by
  have key : ∀ b : Nat, b < 2 ^ 15 → (2 ^ 15 * 1 ||| b) = b + 0x8000 := by
    intro b hb
    rw [← Nat.mul_add_lt_is_or hb 1]
    omega
  have hb : D % 0x8000 < 2 ^ 15 := Nat.mod_lt _ (by decide)
  have h2 : (0x8000 : Nat) = 2 ^ 15 * 1 := by decide
  rcases Nat.lt_or_ge D 0x8000 with h | h
  · rw [Nat.mod_eq_of_lt h, Nat.lor_comm]
    nth_rewrite 1 [h2]
    exact key D h
  · have hD2 : D = 2 ^ 15 * 1 ||| D % 0x8000 := by
      rw [← Nat.mul_add_lt_is_or hb 1]
      omega
    nth_rewrite 1 [hD2]
    nth_rewrite 2 [h2]
    rw [Nat.lor_comm, ← Nat.lor_assoc, Nat.or_self]
    exact key _ hb

theorem calculateReciprocalIndex_eq (D : Nat) :
    calculateReciprocalIndex D = (D % 0x8000 + 0x40) / 0x80 := by
  unfold calculateReciprocalIndex
  rw [and_7fff, Nat.shiftRight_eq_div_pow]
  omega

theorem calculateReciprocal_eq (D : Nat) (hD : D < 2 ^ 16) :
    ∃ e, UNSIGNED_NEWTOWN_RAPHSON_TABLE[(D % 0x8000 + 0x40) / 0x80]? = some e ∧ e ≤ 255 ∧
      calculateReciprocal D = some (reciprocalNat e (D % 0x8000 + 0x8000)) := by
  have hidx := calculateReciprocalIndex_eq D
  obtain ⟨e, he, hle⟩ := table_lookup ((D % 0x8000 + 0x40) / 0x80) (by omega)
  refine ⟨e, he, hle, ?_⟩
  unfold calculateReciprocal
  simp only [hidx, he, or_8000 D hD]
  rw [reciprocal_int_eq e _ hle (by omega) (by omega)]

theorem allBlock_sound (p : Nat → Bool) :
    ∀ (k lo : Nat), allBlock p k lo = true → ∀ x, lo ≤ x → x < lo + 2 ^ k → p x = true := by
  intro k
  induction k with
  | zero =>
    intro lo h x h1 h2
    have : x = lo := by simp at h2; omega
    subst this
    simpa [allBlock] using h
  | succ k ih =>
    intro lo h x h1 h2
    simp only [allBlock, Bool.and_eq_true] at h
    rw [pow_succ] at h2
    rcases Nat.lt_or_ge x (lo + 2 ^ k) with hx | hx
    · exact ih lo h.1 x h1 hx
    · exact ih (lo + 2 ^ k) h.2 x hx (by omega)

theorem checkTable_sound (ok : Nat → Nat → Bool) :
    ∀ (l : List Nat) (lo : Nat), checkTable ok l lo = true →
      ∀ (i e : Nat), l[i]? = some e →
        ∀ x, lo + 128 * i ≤ x → x < lo + 128 * i + 128 → ok e x = true := by
  intro l
  induction l with
  | nil => intro lo _ i e he; simp at he
  | cons a rest ih =>
    intro lo h i e he x h1 h2
    simp only [checkTable, Bool.and_eq_true] at h
    cases i with
    | zero =>
      simp at he
      subst he
      exact allBlock_sound (ok a) 7 lo h.1 x (by omega) (by norm_num; omega)
    | succ i =>
      simp at he
      exact ih (lo + 128) h.2 i e he x (by omega) (by omega)

theorem reciprocalBoundsOk_sound (e x : Nat) (h : reciprocalBoundsOk e x = true)
    (h1 : 0x8040 ≤ x) (h2 : x < 0x10040) :
    ReciprocalBounds (x - 0x40) (reciprocalNat e (x - 0x40)) := by
  unfold reciprocalBoundsOk at h
  simp only [Bool.or_eq_true, Bool.and_eq_true, Nat.ble_eq] at h
  unfold ReciprocalBounds
  omega

theorem reciprocalBounds_table :
    checkTable reciprocalBoundsOk UNSIGNED_NEWTOWN_RAPHSON_TABLE 0x8000 = true := by
  decide!

theorem calculateReciprocal_normalized (D : Nat) (h1 : 2 ^ 15 ≤ D) (h2 : D < 2 ^ 16) :
    ∃ R, calculateReciprocal D = some R ∧ ReciprocalBounds D R := by
  obtain ⟨e, he, _, hR⟩ := calculateReciprocal_eq D h2
  have hmod : D % 0x8000 + 0x8000 = D := by omega
  rw [hmod] at hR
  refine ⟨_, hR, ?_⟩
  have hok := checkTable_sound reciprocalBoundsOk _ _ reciprocalBounds_table
    ((D % 0x8000 + 0x40) / 0x80) e he (D + 0x40) (by omega) (by omega)
  have := reciprocalBoundsOk_sound e (D + 0x40) hok (by omega) (by omega)
  simpa using this

theorem divide_of_range (n d k : Nat) (hn : n < 2 ^ 16) (hk : k ≤ 15) (hlo : 2 ^ k ≤ d)
    (hhi : d < 2 ^ (k + 1)) :
    ∃ R, calculateReciprocal (d * 2 ^ (15 - k)) = some R ∧
      ReciprocalBounds (d * 2 ^ (15 - k)) R ∧
      divide n d = some (min ((n * 2 ^ (15 - k) * R + 0x8000) / 2 ^ 16) 0x1ffff) := by
  obtain ⟨hD1, hD2⟩ := normalized_of_range d k hk hlo hhi
  obtain ⟨R, hR, hB⟩ := calculateReciprocal_normalized _ hD1 hD2
  refine ⟨R, hR, hB, ?_⟩
  have hs : 2 ^ (15 - k) ≤ 2 ^ 15 := Nat.pow_le_pow_right (by decide) (by omega)
  have hN : n * 2 ^ (15 - k) < 2 ^ 16 * 2 ^ 15 :=
    Nat.mul_lt_mul_of_lt_of_le hn hs (by positivity)
  have hRle : R ≤ 0x20000 := hB.2.1
  have hNR : n * 2 ^ (15 - k) * R ≤ 2 ^ 16 * 2 ^ 15 * 0x20000 :=
    Nat.mul_le_mul (Nat.le_of_lt hN) hRle
  unfold divide
  rw [calculateLeadingZeros_of_range d k hk hlo hhi]
  simp only [Nat.shiftLeft_eq, Nat.shiftRight_eq_div_pow]
  rw [Nat.mod_eq_of_lt hD2, hR, Nat.mod_eq_of_lt (lt_trans hN (by norm_num))]
  simp only []
  rw [Nat.mod_eq_of_lt (by omega)]
  split
  · rename_i h; rw [Nat.min_eq_left h]
  · rename_i h; rw [Nat.min_eq_right (by omega)]

theorem calculateReciprocal_low_bits (D : Nat) (hD : D < 2 ^ 16) :
    calculateReciprocal D = calculateReciprocal (D % 0x8000 + 0x8000) := by
  obtain ⟨e, he, _, hR⟩ := calculateReciprocal_eq D hD
  obtain ⟨e2, he2, _, hR2⟩ := calculateReciprocal_eq (D % 0x8000 + 0x8000) (by omega)
  have hm : (D % 0x8000 + 0x8000) % 0x8000 = D % 0x8000 := by omega
  rw [hm] at he2 hR2
  rw [he] at he2
  cases he2
  rw [hR, hR2]

theorem calculateReciprocal_bounds (D : Nat) (hD : D < 2 ^ 16) :
    ∃ R, calculateReciprocal D = some R ∧ 0x10000 ≤ R ∧ R ≤ 0x20000 := by
  obtain ⟨R, hR, hB⟩ :=
    calculateReciprocal_normalized (D % 0x8000 + 0x8000) (by omega) (by omega)
  exact ⟨R, by rw [calculateReciprocal_low_bits D hD, hR], hB.1, hB.2.1⟩

theorem calculateReciprocal_zero : calculateReciprocal 0 = some 0x20000 := by
  obtain ⟨e, he, _, hR⟩ := calculateReciprocal_eq 0 (by norm_num)
  have h0 : UNSIGNED_NEWTOWN_RAPHSON_TABLE[(0 % 0x8000 + 0x40) / 0x80]? = some 0xff := by
    decide!
  rw [h0] at he
  cases he
  rw [hR]
  decide

theorem divide_zero_divisor (n : Nat) (hn : n < 2 ^ 16) :
    divide n 0 = some (min ((n * 2 ^ 16 * 0x20000 + 0x8000) / 2 ^ 16) 0x1ffff) := by
  have hclz : calculateLeadingZeros 16 0 = some 16 := by
    simp [calculateLeadingZeros]
  unfold divide
  rw [hclz]
  simp only [Nat.shiftLeft_eq, Nat.shiftRight_eq_div_pow, Nat.zero_mul, Nat.zero_mod]
  rw [calculateReciprocal_zero, Nat.mod_eq_of_lt (by omega)]
  simp only []
  rw [Nat.mod_eq_of_lt (by omega)]
  split
  · rename_i h; rw [Nat.min_eq_left h]
  · rename_i h; rw [Nat.min_eq_right (by omega)]

/-- C1. For every 16-bit numerator `n` and every 16-bit divisor `d ≠ 0`,
`divide(n, d)` returns a value and that value is at most `0x1FFFF`. -/
theorem divide_le_saturation (n d : Nat) (hn : n < 2 ^ 16) (hd : d < 2 ^ 16) (h0 : d ≠ 0) :
    ∃ r, divide n d = some r ∧ r ≤ 0x1FFFF := by
  obtain ⟨k, hk, hlo, hhi⟩ := exists_range d h0 hd
  obtain ⟨R, _, _, hdiv⟩ := divide_of_range n d k hn hk hlo hhi
  exact ⟨_, hdiv, Nat.min_le_right _ _⟩

theorem divide_le_saturation_witness :
    ∃ r, divide 0x1234 0x0765 = some r ∧ r ≤ 0x1FFFF :=
  divide_le_saturation 0x1234 0x0765 (by decide) (by decide) (by decide)

/-- C2. For every 16-bit divisor `d ≠ 0`, `divide(0, d)` returns 0. -/
theorem divide_zero_numerator (d : Nat) (hd : d < 2 ^ 16) (h0 : d ≠ 0) :
    divide 0 d = some 0 := by
  obtain ⟨k, hk, hlo, hhi⟩ := exists_range d h0 hd
  obtain ⟨R, _, _, hdiv⟩ := divide_of_range 0 d k (by norm_num) hk hlo hhi
  rw [hdiv]
  simp

theorem divide_zero_numerator_witness : divide 0 0x0765 = some 0 :=
  divide_zero_numerator 0x0765 (by decide) (by decide)

/-- C3, as stated, fails: the numerator 1338 is twice the divisor 669, the exact
quotient `floor(1338 * 2^16 / 669) = 0x20000` exceeds `0x1FFFF`, and `divide`
returns `0x1FFFE`. -/
theorem divide_saturation_counterexample :
    1338 < 2 ^ 16 ∧ 669 < 2 ^ 16 ∧ 669 ≠ 0 ∧ 2 * 669 ≤ 1338 ∧
      0x1FFFF < 1338 * 2 ^ 16 / 669 ∧
      divide 1338 669 = some 0x1FFFE ∧ divide 1338 669 ≠ some 0x1FFFF := by
  decide!

/-- The lower bound `0x1FFFD` of the amended C3 is attained: the numerator 28698
is twice the divisor 14349 and `divide` returns `0x1FFFD`. -/
theorem divide_saturation_bound_attained : divide 28698 14349 = some 0x1FFFD := by
  decide!

/-- C3, amended. For every 16-bit `n` and every 16-bit `d ≠ 0` with `n ≥ 2 * d`
(the exact quotient exceeds `0x1FFFF`), `divide(n, d)` returns a value between
`0x1FFFD` and `0x1FFFF`, and it returns the saturation value `0x1FFFF` whenever
`n > 2 * d`. The bounds used are those of `ReciprocalBounds`, checked for every
normalized divisor by `reciprocalBounds_table`. -/
theorem divide_saturates (n d : Nat) (hn : n < 2 ^ 16) (hd : d < 2 ^ 16) (h0 : d ≠ 0)
    (h2 : 2 * d ≤ n) :
    ∃ r, divide n d = some r ∧ 0x1FFFD ≤ r ∧ r ≤ 0x1FFFF ∧ (2 * d < n → r = 0x1FFFF) := by
  obtain ⟨k, hk, hlo, hhi⟩ := exists_range d h0 hd
  obtain ⟨R, _, hB, hdiv⟩ := divide_of_range n d k hn hk hlo hhi
  obtain ⟨hR1, hR2, hB1, hB2⟩ := hB
  -- the divisor is below `2 ^ 15`, so the shift is at least one
  have hk14 : k ≤ 14 := by
    by_contra hc
    have : 2 ^ 15 ≤ 2 ^ k := Nat.pow_le_pow_right (by decide) (by omega)
    omega
  obtain ⟨j, hj⟩ : ∃ j, 15 - k = j + 1 := ⟨14 - k, by omega⟩
  rw [hj] at hB1 hB2 hdiv
  have hpos : 1 ≤ 2 ^ j := Nat.one_le_two_pow
  have hpow : 2 ^ (j + 1) = 2 * 2 ^ j := by rw [pow_succ]; ring
  have heven : d * 2 ^ (j + 1) % 2 = 0 := by
    have : d * 2 ^ (j + 1) = 2 * (d * 2 ^ j) := by rw [hpow]; ring
    omega
  have hB2 := hB2 heven
  -- `N ≥ 2 * D`
  have hN : 2 * (d * 2 ^ (j + 1)) ≤ n * 2 ^ (j + 1) := by
    calc 2 * (d * 2 ^ (j + 1)) = (2 * d) * 2 ^ (j + 1) := by ring
      _ ≤ n * 2 ^ (j + 1) := Nat.mul_le_mul_right _ h2
  have hNR : 2 * (d * 2 ^ (j + 1) * R) ≤ n * 2 ^ (j + 1) * R := by
    calc 2 * (d * 2 ^ (j + 1) * R) = 2 * (d * 2 ^ (j + 1)) * R := by ring
      _ ≤ n * 2 ^ (j + 1) * R := Nat.mul_le_mul_right _ hN
  refine ⟨_, hdiv, ?_, Nat.min_le_right _ _, ?_⟩
  · have : 0x1FFFD ≤ (n * 2 ^ (j + 1) * R + 0x8000) / 2 ^ 16 := by
      rw [Nat.le_div_iff_mul_le (by norm_num)]
      norm_num at hB1 ⊢
      omega
    exact le_min this (by norm_num)
  · intro hlt
    have hN2 : 2 * (d * 2 ^ (j + 1) + 1) ≤ n * 2 ^ (j + 1) := by
      calc 2 * (d * 2 ^ (j + 1) + 1) = 2 * d * 2 ^ (j + 1) + 2 := by ring
        _ ≤ 2 * d * 2 ^ (j + 1) + 2 ^ (j + 1) := by omega
        _ = (2 * d + 1) * 2 ^ (j + 1) := by ring
        _ ≤ n * 2 ^ (j + 1) := Nat.mul_le_mul_right _ hlt
    have hNR2 : 2 * ((d * 2 ^ (j + 1) + 1) * R) ≤ n * 2 ^ (j + 1) * R := by
      calc 2 * ((d * 2 ^ (j + 1) + 1) * R) = 2 * (d * 2 ^ (j + 1) + 1) * R := by ring
        _ ≤ n * 2 ^ (j + 1) * R := Nat.mul_le_mul_right _ hN2
    have : 0x20000 ≤ (n * 2 ^ (j + 1) * R + 0x8000) / 2 ^ 16 := by
      rw [Nat.le_div_iff_mul_le (by norm_num)]
      norm_num at hB2 ⊢
      omega
    exact Nat.min_eq_right (by omega)

theorem divide_saturates_witness :
    ∃ r, divide 1339 669 = some r ∧ 0x1FFFD ≤ r ∧ r ≤ 0x1FFFF ∧
      (2 * 669 < 1339 → r = 0x1FFFF) :=
  divide_saturates 1339 669 (by decide) (by decide) (by decide) (by decide)

theorem calculateReciprocal_max : calculateReciprocal 0xFFFF = some 0x10000 := by
  decide!

theorem calculateReciprocal_min : calculateReciprocal 0x8000 = some 0x20000 := by
  decide!

theorem divide_max_divisor (n : Nat) (hn : n < 2 ^ 16) : divide n 0xFFFF = some n := by
  obtain ⟨R, hR, _, hdiv⟩ := divide_of_range n 0xFFFF 15 hn (by norm_num) (by norm_num)
    (by norm_num)
  have hD : 0xFFFF * 2 ^ (15 - 15) = 0xFFFF := by norm_num
  rw [hD, calculateReciprocal_max] at hR
  cases hR
  have hq : (n * 2 ^ (15 - 15) * 0x10000 + 0x8000) / 2 ^ 16 = n := by
    norm_num
    omega
  rw [hdiv, hq, Nat.min_eq_left (by omega)]

/-- C4. With the maximal divisor the divider is a near-identity: for every 16-bit
numerator `n`, `divide(n, 0xFFFF)` returns a value that differs from `n` by at
most 1. -/
theorem divide_max_divisor_near_identity (n : Nat) (hn : n < 2 ^ 16) :
    ∃ r, divide n 0xFFFF = some r ∧ r ≤ n + 1 ∧ n ≤ r + 1 :=
  ⟨n, divide_max_divisor n hn, by omega, by omega⟩

theorem divide_max_divisor_near_identity_witness :
    ∃ r, divide 0x1234 0xFFFF = some r ∧ r ≤ 0x1234 + 1 ∧ 0x1234 ≤ r + 1 :=
  divide_max_divisor_near_identity 0x1234 (by decide)

theorem divide_pow_two (n k : Nat) (hn : n < 2 ^ 16) (hk : k ≤ 15) :
    divide n (2 ^ k) = some (min (n * 2 ^ (16 - k)) 0x1FFFF) := by
  obtain ⟨R, hR, _, hdiv⟩ := divide_of_range n (2 ^ k) k hn hk le_rfl
    (Nat.pow_lt_pow_right (by decide) (by omega))
  have hD : 2 ^ k * 2 ^ (15 - k) = 0x8000 := by
    rw [← pow_add, show k + (15 - k) = 15 by omega]
    norm_num
  rw [hD, calculateReciprocal_min] at hR
  cases hR
  have hp : 2 ^ (16 - k) = 2 * 2 ^ (15 - k) := by
    rw [← pow_succ', show 15 - k + 1 = 16 - k by omega]
  have hq : (n * 2 ^ (15 - k) * 0x20000 + 0x8000) / 2 ^ 16 = n * 2 ^ (16 - k) := by
    have : n * 2 ^ (16 - k) = 2 * (n * 2 ^ (15 - k)) := by rw [hp]; ring
    rw [this]
    generalize n * 2 ^ (15 - k) = a
    omega
  rw [hdiv, hq]

/-- C5. Division by a power of two is exact up to saturation: for every 16-bit
numerator `n` and every `k ≤ 15`, `divide(n, 2^k)` returns
`min(n * 2^(16-k), 0x1FFFF)`; in particular `divide(0x8000, 0x1)` returns
`0x1FFFF`. -/
theorem divide_power_of_two (n k : Nat) (hn : n < 2 ^ 16) (hk : k ≤ 15) :
    divide n (2 ^ k) = some (min (n * 2 ^ (16 - k)) 0x1FFFF) ∧
      divide 0x8000 0x1 = some 0x1FFFF := by
  refine ⟨divide_pow_two n k hn hk, ?_⟩
  have := divide_pow_two 0x8000 0 (by norm_num) (by norm_num)
  simpa using this

theorem divide_power_of_two_witness :
    divide 0x0123 (2 ^ 9) = some (min (0x0123 * 2 ^ (16 - 9)) 0x1FFFF) ∧
      divide 0x8000 0x1 = some 0x1FFFF :=
  divide_power_of_two 0x0123 9 (by decide) (by decide)

theorem table_adjacent :
    ∀ i, i < 256 → UNSIGNED_NEWTOWN_RAPHSON_TABLE.getD (i + 1) 0 ≤
      UNSIGNED_NEWTOWN_RAPHSON_TABLE.getD i 0 := by
  decide!

/-- C6. The lookup table has exactly 257 entries, is monotonically
non-increasing (`table[i] ≥ table[i+1]` for every `i` from 0 to 255), and its
last two entries, `table[255]` and `table[256]`, are zero. -/
theorem table_shape :
    UNSIGNED_NEWTOWN_RAPHSON_TABLE.length = 257 ∧
      (∀ i, i ≤ 255 → ∃ a b, UNSIGNED_NEWTOWN_RAPHSON_TABLE[i]? = some a ∧
        UNSIGNED_NEWTOWN_RAPHSON_TABLE[i + 1]? = some b ∧ b ≤ a) ∧
      UNSIGNED_NEWTOWN_RAPHSON_TABLE[255]? = some 0 ∧
      UNSIGNED_NEWTOWN_RAPHSON_TABLE[256]? = some 0 := by
  have hlen : UNSIGNED_NEWTOWN_RAPHSON_TABLE.length = 257 := by decide!
  refine ⟨hlen, ?_, by decide!, by decide!⟩
  intro i hi
  have h1 : i < UNSIGNED_NEWTOWN_RAPHSON_TABLE.length := by omega
  have h2 : i + 1 < UNSIGNED_NEWTOWN_RAPHSON_TABLE.length := by omega
  refine ⟨UNSIGNED_NEWTOWN_RAPHSON_TABLE[i], UNSIGNED_NEWTOWN_RAPHSON_TABLE[i + 1],
    List.getElem?_eq_getElem h1, List.getElem?_eq_getElem h2, ?_⟩
  have := table_adjacent i (by omega)
  rw [List.getD_eq_getElem _ _ h1, List.getD_eq_getElem _ _ h2] at this
  exact this

theorem table_shape_witness :
    ∃ a b, UNSIGNED_NEWTOWN_RAPHSON_TABLE[253]? = some a ∧
      UNSIGNED_NEWTOWN_RAPHSON_TABLE[253 + 1]? = some b ∧ b ≤ a :=
  table_shape.2.1 253 (by decide)

/-! ## Theorems on the GPU value types -/

theorem createFromFields_value (hr1 hr2 : Nat) :
    (HorizontalRes.createFromFields hr1 hr2).m_horizontalRes = 2 * (hr1 % 4) + hr2 % 2 := by
  have h3 : hr1 &&& 3 = hr1 % 4 := Nat.and_pow_two_sub_one_eq_mod hr1 2
  have hor : 2 ^ 1 * (hr1 % 4) + hr2 % 2 = 2 ^ 1 * (hr1 % 4) ||| hr2 % 2 :=
    Nat.mul_add_lt_is_or (Nat.mod_lt _ (by decide)) _
  unfold HorizontalRes.createFromFields HorizontalRes.new
  simp only [Nat.and_one_is_mod, h3, Nat.shiftLeft_eq]
  rw [Nat.lor_comm, Nat.mul_comm, ← hor]
  omega

theorem dotclockDivider_eq (self : HorizontalRes) :
    self.dotclockDivider =
      if self.m_horizontalRes % 2 = 1 then 7
      else if self.m_horizontalRes / 2 % 4 = 0 then 10
      else if self.m_horizontalRes / 2 % 4 = 1 then 8
      else if self.m_horizontalRes / 2 % 4 = 2 then 5
      else 4 := by
  have h3 : ∀ x : Nat, x &&& 3 = x % 4 := fun x => Nat.and_pow_two_sub_one_eq_mod x 2
  unfold HorizontalRes.dotclockDivider
  simp only [Nat.and_one_is_mod, h3, Nat.shiftRight_eq_div_pow, pow_one]
  have hlt : self.m_horizontalRes / 2 % 4 < 4 := Nat.mod_lt _ (by decide)
  have e1 : self.m_horizontalRes / 2 % 4 % 2 ^ 8 = self.m_horizontalRes / 2 % 4 := by omega
  have e2 : self.m_horizontalRes % 2 % 2 ^ 8 = self.m_horizontalRes % 2 := by omega
  rw [e1, e2]
  generalize self.m_horizontalRes / 2 % 4 = a at hlt
  have hm : self.m_horizontalRes % 2 < 2 := Nat.mod_lt _ (by decide)
  generalize self.m_horizontalRes % 2 = b at hm
  interval_cases a <;> interval_cases b <;> rfl

/-- C7. For every pair of bytes `hr1`, `hr2`, the dot-clock divider of
`createFromFields(hr1, hr2)` is 7 when bit 0 of `hr2` is set, whatever `hr1` is;
otherwise it is 10, 8, 5 or 4 when `hr1 & 3` is 0, 1, 2 or 3. -/
theorem dotclockDivider_createFromFields (hr1 hr2 : Nat) (_h1 : hr1 < 256) (_h2 : hr2 < 256) :
    (hr2 &&& 1 = 1 → (HorizontalRes.createFromFields hr1 hr2).dotclockDivider = 7) ∧
    (hr2 &&& 1 ≠ 1 →
      (hr1 &&& 3 = 0 → (HorizontalRes.createFromFields hr1 hr2).dotclockDivider = 10) ∧
      (hr1 &&& 3 = 1 → (HorizontalRes.createFromFields hr1 hr2).dotclockDivider = 8) ∧
      (hr1 &&& 3 = 2 → (HorizontalRes.createFromFields hr1 hr2).dotclockDivider = 5) ∧
      (hr1 &&& 3 = 3 → (HorizontalRes.createFromFields hr1 hr2).dotclockDivider = 4)) := by
  have h3 : hr1 &&& 3 = hr1 % 4 := Nat.and_pow_two_sub_one_eq_mod hr1 2
  rw [dotclockDivider_eq, createFromFields_value, Nat.and_one_is_mod, h3]
  have ha : (2 * (hr1 % 4) + hr2 % 2) % 2 = hr2 % 2 := by omega
  have hb : (2 * (hr1 % 4) + hr2 % 2) / 2 % 4 = hr1 % 4 := by omega
  rw [ha, hb]
  refine ⟨fun h => by simp [h], fun h => ⟨fun g => ?_, fun g => ?_, fun g => ?_, fun g => ?_⟩⟩ <;>
    simp [h, g]

theorem dotclockDivider_createFromFields_witness :
    (0xA5 &&& 1 = 1 → (HorizontalRes.createFromFields 0x7E 0xA5).dotclockDivider = 7) ∧
    (0xA5 &&& 1 ≠ 1 →
      (0x7E &&& 3 = 0 → (HorizontalRes.createFromFields 0x7E 0xA5).dotclockDivider = 10) ∧
      (0x7E &&& 3 = 1 → (HorizontalRes.createFromFields 0x7E 0xA5).dotclockDivider = 8) ∧
      (0x7E &&& 3 = 2 → (HorizontalRes.createFromFields 0x7E 0xA5).dotclockDivider = 5) ∧
      (0x7E &&& 3 = 3 → (HorizontalRes.createFromFields 0x7E 0xA5).dotclockDivider = 4)) :=
  dotclockDivider_createFromFields 0x7E 0xA5 (by decide) (by decide)

/-- C8. The dot-clock divider is always one of 4, 5, 7, 8, 10: for every
`HorizontalRes` value, and so for the one the constructor `HorizontalRes(uint8_t)`
builds from any raw byte, `dotclockDivider()` returns 4, 5, 7, 8 or 10, never
the initial value 1. -/
theorem dotclockDivider_mem (self : HorizontalRes) (hr : Nat) :
    (self.dotclockDivider = 4 ∨ self.dotclockDivider = 5 ∨ self.dotclockDivider = 7 ∨
      self.dotclockDivider = 8 ∨ self.dotclockDivider = 10) ∧
    ((HorizontalRes.new hr).dotclockDivider = 4 ∨ (HorizontalRes.new hr).dotclockDivider = 5 ∨
      (HorizontalRes.new hr).dotclockDivider = 7 ∨ (HorizontalRes.new hr).dotclockDivider = 8 ∨
      (HorizontalRes.new hr).dotclockDivider = 10) ∧
    self.dotclockDivider ≠ 1 := by
  have key : ∀ h : HorizontalRes, h.dotclockDivider = 4 ∨ h.dotclockDivider = 5 ∨
      h.dotclockDivider = 7 ∨ h.dotclockDivider = 8 ∨ h.dotclockDivider = 10 := by
    intro h
    rw [dotclockDivider_eq]
    split_ifs <;> simp
  refine ⟨key self, key _, ?_⟩
  rcases key self with h | h | h | h | h <;> rw [h] <;> decide

theorem and_three (x : Nat) : x &&& 3 = x % 4 := Nat.and_pow_two_sub_one_eq_mod x 2

/-- C9. For every pair of bytes `hr1`, `hr2`, `createFromFields(hr1, hr2)` stores
`(hr2 & 1) | ((hr1 & 3) << 1)`, which is below 8, and its `intoStatus()` is
`((hr2 & 1) << 16) | ((hr1 & 3) << 17)`, a value with no bit set outside bits
18 to 16 of the status word. -/
theorem createFromFields_intoStatus (hr1 hr2 : Nat) (_h1 : hr1 < 256) (_h2 : hr2 < 256) :
    (HorizontalRes.createFromFields hr1 hr2).m_horizontalRes
        = ((hr2 &&& 1) ||| ((hr1 &&& 3) <<< 1)) ∧
      (HorizontalRes.createFromFields hr1 hr2).m_horizontalRes < 8 ∧
      (HorizontalRes.createFromFields hr1 hr2).intoStatus
        = (((hr2 &&& 1) <<< 16) ||| ((hr1 &&& 3) <<< 17)) ∧
      (HorizontalRes.createFromFields hr1 hr2).intoStatus &&& (0xFFFFFFFF - 0x70000) = 0 := by
  have hv := createFromFields_value hr1 hr2
  have ha : hr1 % 4 < 4 := Nat.mod_lt _ (by decide)
  have hb : hr2 % 2 < 2 := Nat.mod_lt _ (by decide)
  have hst : (HorizontalRes.createFromFields hr1 hr2).intoStatus
      = (2 * (hr1 % 4) + hr2 % 2) * 2 ^ 16 := by
    unfold HorizontalRes.intoStatus
    rw [hv, Nat.shiftLeft_eq]
    omega
  rw [hst, hv, Nat.and_one_is_mod, and_three]
  generalize hr1 % 4 = a at ha
  generalize hr2 % 2 = b at hb
  interval_cases a <;> interval_cases b <;> decide

theorem createFromFields_intoStatus_witness :
    (HorizontalRes.createFromFields 0x7E 0xA5).m_horizontalRes
        = ((0xA5 &&& 1) ||| ((0x7E &&& 3) <<< 1)) ∧
      (HorizontalRes.createFromFields 0x7E 0xA5).m_horizontalRes < 8 ∧
      (HorizontalRes.createFromFields 0x7E 0xA5).intoStatus
        = (((0xA5 &&& 1) <<< 16) ||| ((0x7E &&& 3) <<< 17)) ∧
      (HorizontalRes.createFromFields 0x7E 0xA5).intoStatus &&& (0xFFFFFFFF - 0x70000) = 0 :=
  createFromFields_intoStatus 0x7E 0xA5 (by decide) (by decide)

theorem pushWord_of_lt (cb : CommandBuffer) (w : Nat) (h : cb.m_len < 12) :
    cb.pushWord w =
      { m_buffer := Function.update cb.m_buffer ⟨cb.m_len, h⟩ w
        m_len := (cb.m_len + 1) % 2 ^ 8 } := by
  unfold CommandBuffer.pushWord
  rw [dif_neg (by omega)]

theorem pushWord_len_of_lt (cb : CommandBuffer) (w : Nat) (h : cb.m_len < 12) :
    (cb.pushWord w).m_len = cb.m_len + 1 := by
  rw [pushWord_of_lt cb w h]
  show (cb.m_len + 1) % 2 ^ 8 = cb.m_len + 1
  omega

theorem pushWord_of_full (cb : CommandBuffer) (w : Nat) (h : 12 ≤ cb.m_len) :
    cb.pushWord w = cb := by
  unfold CommandBuffer.pushWord
  rw [dif_pos h]

theorem pushWord_get_of_lt (cb : CommandBuffer) (w i : Nat) (h : cb.m_len < 12) :
    (cb.pushWord w).get i = if i = cb.m_len then some w else cb.get i := by
  rw [pushWord_of_lt cb w h]
  unfold CommandBuffer.get
  by_cases hi : i < 12
  · simp only [dif_pos hi]
    by_cases he : i = cb.m_len
    · subst he
      simp
    · rw [if_neg he, Function.update_noteq]
      intro hc
      exact he (Fin.mk.inj_iff.mp hc)
  · simp only [dif_neg hi]
    rw [if_neg (by omega)]

theorem pushWords_spec (ws : List Nat) :
    ∀ cb : CommandBuffer, cb.m_len ≤ 12 →
      (cb.pushWords ws).m_len = min (cb.m_len + ws.length) 12 ∧
      (∀ i, i < cb.m_len → (cb.pushWords ws).get i = cb.get i) ∧
      (∀ i (hi : i < ws.length), cb.m_len + i < 12 →
        (cb.pushWords ws).get (cb.m_len + i) = some ws[i]) := by
  induction ws with
  | nil =>
    intro cb h
    refine ⟨by simp [CommandBuffer.pushWords]; omega, fun i _ => rfl, ?_⟩
    intro i hi
    simp at hi
  | cons w ws ih =>
    intro cb h
    have hstep : cb.pushWords (w :: ws) = (cb.pushWord w).pushWords ws := rfl
    rw [hstep]
    rcases Nat.lt_or_ge cb.m_len 12 with hlt | hge
    · have hl := pushWord_len_of_lt cb w hlt
      obtain ⟨ih1, ih2, ih3⟩ := ih (cb.pushWord w) (by omega)
      refine ⟨?_, ?_, ?_⟩
      · rw [ih1, hl, List.length_cons]; congr 1; omega
      · intro i hi
        rw [ih2 i (by omega), pushWord_get_of_lt cb w i hlt, if_neg (by omega)]
      · intro i hi hb
        cases i with
        | zero =>
          rw [Nat.add_zero, ih2 _ (by omega), pushWord_get_of_lt cb w _ hlt, if_pos rfl]
          rfl
        | succ i =>
          have := ih3 i (by simpa using hi) (by omega)
          rw [hl] at this
          rw [show cb.m_len + (i + 1) = cb.m_len + 1 + i by omega, this]
          rfl
    · have hfull := pushWord_of_full cb w hge
      rw [hfull]
      obtain ⟨ih1, ih2, _⟩ := ih cb h
      refine ⟨?_, ih2, ?_⟩
      · rw [ih1, List.length_cons]; omega
      · intro i hi hb
        omega

/-- C10. For every list of words pushed with `pushWord` onto an empty
`CommandBuffer` (freshly constructed, or just cleared), the resulting length is
`min(k, 12)` and for every `i < min(k, 12)` the indexed read `[i]` returns the
`i`-th pushed word; words after the twelfth are dropped. -/
theorem pushWords_on_empty (cb0 : CommandBuffer) (ws : List Nat)
    (hempty : cb0 = CommandBuffer.new ∨ ∃ cb : CommandBuffer, cb0 = cb.clear) :
    (cb0.pushWords ws).m_len = min ws.length 12 ∧
      ∀ i, i < min ws.length 12 →
        ∃ w, ws[i]? = some w ∧ (cb0.pushWords ws).get i = some w := by
  have hlen : cb0.m_len = 0 := by
    rcases hempty with h | ⟨cb, h⟩ <;> rw [h] <;> rfl
  obtain ⟨h1, _, h3⟩ := pushWords_spec ws cb0 (by omega)
  rw [hlen, Nat.zero_add] at h1
  refine ⟨h1, ?_⟩
  intro i hi
  have hi2 : i < ws.length := lt_of_lt_of_le hi (Nat.min_le_left _ _)
  have := h3 i hi2 (by omega)
  rw [hlen, Nat.zero_add] at this
  exact ⟨ws[i], List.getElem?_eq_getElem hi2, this⟩

theorem pushWords_on_empty_witness :
    (CommandBuffer.new.pushWords [10, 11, 12, 13, 14, 15, 16, 17, 18, 19, 20, 21, 22]).m_len
        = min [10, 11, 12, 13, 14, 15, 16, 17, 18, 19, 20, 21, 22].length 12 ∧
      ∀ i, i < min [10, 11, 12, 13, 14, 15, 16, 17, 18, 19, 20, 21, 22].length 12 →
        ∃ w, [10, 11, 12, 13, 14, 15, 16, 17, 18, 19, 20, 21, 22][i]? = some w ∧
          (CommandBuffer.new.pushWords
            [10, 11, 12, 13, 14, 15, 16, 17, 18, 19, 20, 21, 22]).get i = some w :=
  pushWords_on_empty CommandBuffer.new [10, 11, 12, 13, 14, 15, 16, 17, 18, 19, 20, 21, 22]
    (Or.inl rfl)

/-- C11. The length of a `CommandBuffer` never exceeds 12: starting from the
constructed buffer, after every finite sequence of `pushWord` and `clear`
operations the counter `m_len` is at most 12. -/
theorem commandBuffer_len_le (ops : List CommandBufferOp) :
    (ops.foldl CommandBuffer.apply CommandBuffer.new).m_len ≤ 12 := by
  have step : ∀ (cb : CommandBuffer) (op : CommandBufferOp), cb.m_len ≤ 12 →
      (cb.apply op).m_len ≤ 12 := by
    intro cb op h
    cases op with
    | pushWord w =>
      show (cb.pushWord w).m_len ≤ 12
      rcases Nat.lt_or_ge cb.m_len 12 with hlt | hge
      · rw [pushWord_len_of_lt cb w hlt]; omega
      · rw [pushWord_of_full cb w hge]; exact h
    | clear => exact Nat.zero_le _
  have gen : ∀ (l : List CommandBufferOp) (cb : CommandBuffer), cb.m_len ≤ 12 →
      (l.foldl CommandBuffer.apply cb).m_len ≤ 12 := by
    intro l
    induction l with
    | nil => intro cb h; exact h
    | cons op rest ih => intro cb h; exact ih _ (step cb op h)
  exact gen ops _ (Nat.zero_le _)

/-- C12. For every `CommandBuffer` state, `clear()` sets the length to 0 and
leaves all 12 stored words unchanged. -/
theorem clear_frame (cb : CommandBuffer) :
    cb.clear.m_len = 0 ∧ cb.clear.m_buffer = cb.m_buffer ∧
      ∀ i, cb.clear.get i = cb.get i :=
  ⟨rfl, rfl, fun _ => rfl⟩

/-- C16. The constructed `Gpu`, for either hardware type, has an empty GP0
command buffer (length 0, which is at most 12), an idle GP0 pipeline (mode
`GP0_MODE_COMMAND`, 0 words remaining), vertical resolution 240 lines with
interlacing off, field `FIELD_TOP`, and a dot-clock divider of 10, a member of
4, 5, 7, 8, 10. -/
theorem gpu_power_on (hardwareType : HardwareType) :
    (Gpu.new hardwareType).m_gp0Command.m_len = 0 ∧
      (Gpu.new hardwareType).m_gp0Command.m_len ≤ 12 ∧
      (Gpu.new hardwareType).m_gp0Mode = Gp0Mode.GP0_MODE_COMMAND ∧
      (Gpu.new hardwareType).m_gp0WordsRemaining = 0 ∧
      (Gpu.new hardwareType).m_vres = VerticalRes.VERTICAL_RES_240_LINES ∧
      (Gpu.new hardwareType).m_interlaced = false ∧
      (Gpu.new hardwareType).m_field = Field.FIELD_TOP ∧
      (Gpu.new hardwareType).m_hres.dotclockDivider = 10 ∧
      (Gpu.new hardwareType).m_hres.dotclockDivider ∈ [4, 5, 7, 8, 10] ∧
      (Gpu.new hardwareType).m_hardwareType = hardwareType := by
  have hdiv : (HorizontalRes.createFromFields 0x0 0x0).dotclockDivider = 10 := by decide
  have hres : (Gpu.new hardwareType).m_hres = HorizontalRes.createFromFields 0x0 0x0 := rfl
  refine ⟨rfl, Nat.zero_le _, rfl, rfl, rfl, rfl, rfl, ?_, ?_, rfl⟩
  · rw [hres, hdiv]
  · rw [hres, hdiv]
    decide

theorem testBit_top_of_range (d k : Nat) (hlo : 2 ^ k ≤ d) (hhi : d < 2 ^ (k + 1)) :
    d.testBit k = true := by
  rw [Nat.testBit_to_div_mod]
  have hpos : 0 < 2 ^ k := by positivity
  have h1 : 1 ≤ d / 2 ^ k := (Nat.le_div_iff_mul_le hpos).mpr (by omega)
  have h2 : d / 2 ^ k < 2 := (Nat.div_lt_iff_lt_mul hpos).mpr (by rw [pow_succ] at hhi; omega)
  exact decide_eq_true (by omega)

/-- C13. For every non-zero 16-bit divisor `d`, `calculateLeadingZeros(d)`
terminates and returns the number `s` of leading zero bits of `d`
(`0 ≤ s ≤ 15`: bit `15 - s` of `d` is set and every higher bit is clear), and the
normalized divisor `d << s` of `divide` loses no bit when stored in 16 bits and
has its high bit set, `0x8000 ≤ d * 2^s ≤ 0xFFFF`; for `d = 0` the function
returns 16. -/
theorem calculateLeadingZeros_spec (d : Nat) (h0 : d ≠ 0) (hd : d < 2 ^ 16) :
    (∃ s, calculateLeadingZeros 16 d = some s ∧ s ≤ 15 ∧
      2 ^ (15 - s) ≤ d ∧ d < 2 ^ (16 - s) ∧
      d.testBit (15 - s) = true ∧ (∀ i, 15 - s < i → d.testBit i = false) ∧
      (d <<< s) % 2 ^ 16 = d * 2 ^ s ∧ 0x8000 ≤ d * 2 ^ s ∧ d * 2 ^ s ≤ 0xFFFF) ∧
    calculateLeadingZeros 16 0 = some 16 := by
  refine ⟨?_, by simp [calculateLeadingZeros]⟩
  obtain ⟨k, hk, hlo, hhi⟩ := exists_range d h0 hd
  obtain ⟨hD1, hD2⟩ := normalized_of_range d k hk hlo hhi
  have e1 : 15 - (15 - k) = k := by omega
  have e2 : 16 - (15 - k) = k + 1 := by omega
  refine ⟨15 - k, calculateLeadingZeros_of_range d k hk hlo hhi, by omega, ?_, ?_, ?_, ?_,
    ?_, ?_, ?_⟩
  · rw [e1]; exact hlo
  · rw [e2]; exact hhi
  · rw [e1]; exact testBit_top_of_range d k hlo hhi
  · intro i hi
    rw [e1] at hi
    exact Nat.testBit_lt_two_pow
      (lt_of_lt_of_le hhi (Nat.pow_le_pow_right (by decide) (by omega)))
  · rw [Nat.shiftLeft_eq, Nat.mod_eq_of_lt hD2]
  · simpa using hD1
  · have : d * 2 ^ (15 - k) < 65536 := by simpa using hD2
    omega

theorem calculateLeadingZeros_spec_witness :
    (∃ s, calculateLeadingZeros 16 0x0765 = some s ∧ s ≤ 15 ∧
      2 ^ (15 - s) ≤ 0x0765 ∧ 0x0765 < 2 ^ (16 - s) ∧
      (0x0765).testBit (15 - s) = true ∧ (∀ i, 15 - s < i → (0x0765).testBit i = false) ∧
      (0x0765 <<< s) % 2 ^ 16 = 0x0765 * 2 ^ s ∧ 0x8000 ≤ 0x0765 * 2 ^ s ∧
      0x0765 * 2 ^ s ≤ 0xFFFF) ∧
    calculateLeadingZeros 16 0 = some 16 :=
  calculateLeadingZeros_spec 0x0765 (by decide) (by decide)

theorem divide_total_aux (n d : Nat) (hn : n < 2 ^ 16) (hd : d < 2 ^ 16) :
    ∃ s R, s ≤ 16 ∧ calculateLeadingZeros 16 d = some s ∧
      calculateReciprocal ((d <<< s) % 2 ^ 16) = some R ∧ 0x10000 ≤ R ∧ R ≤ 0x20000 ∧
      divide n d = some (min ((n * 2 ^ s * R + 0x8000) / 2 ^ 16) 0x1ffff) := by
  by_cases h0 : d = 0
  · subst h0
    refine ⟨16, 0x20000, le_rfl, by simp [calculateLeadingZeros], ?_, by norm_num, le_rfl,
      divide_zero_divisor n hn⟩
    rw [Nat.shiftLeft_eq, Nat.zero_mul, Nat.zero_mod]
    exact calculateReciprocal_zero
  · obtain ⟨k, hk, hlo, hhi⟩ := exists_range d h0 hd
    obtain ⟨_, hD2⟩ := normalized_of_range d k hk hlo hhi
    obtain ⟨R, hR, hB, hdiv⟩ := divide_of_range n d k hn hk hlo hhi
    refine ⟨15 - k, R, by omega, calculateLeadingZeros_of_range d k hk hlo hhi, ?_,
      hB.1, hB.2.1, hdiv⟩
    rw [Nat.shiftLeft_eq, Nat.mod_eq_of_lt hD2]
    exact hR

/-- C15. `divide` is total on 16-bit operands, the divisor 0 included:
`divide(0, 0)` returns 0 and `divide(n, 0)` returns `0x1FFFF` for every 16-bit
numerator `n ≥ 1`. -/
theorem divide_total (n d : Nat) (hn : n < 2 ^ 16) (hd : d < 2 ^ 16) :
    (∃ r, divide n d = some r) ∧ divide 0 0 = some 0 ∧
      (1 ≤ n → divide n 0 = some 0x1FFFF) := by
  obtain ⟨s, R, _, _, _, _, _, hdiv⟩ := divide_total_aux n d hn hd
  refine ⟨⟨_, hdiv⟩, ?_, ?_⟩
  · rw [divide_zero_divisor 0 (by norm_num)]
    norm_num
  · intro h1
    rw [divide_zero_divisor n hn]
    have : 0x20000 ≤ (n * 2 ^ 16 * 0x20000 + 0x8000) / 2 ^ 16 := by
      rw [Nat.le_div_iff_mul_le (by norm_num)]
      norm_num
      omega
    rw [Nat.min_eq_right (by omega)]

theorem divide_total_witness :
    (∃ r, divide 0x1234 0 = some r) ∧ divide 0 0 = some 0 ∧
      (1 ≤ 0x1234 → divide 0x1234 0 = some 0x1FFFF) :=
  divide_total 0x1234 0 (by decide) (by decide)

/-- C17. For every 16-bit divisor passed to `calculateReciprocal`, the table
index `((divisor & 0x7fff) + 0x40) >> 7` (which its `uint16_t` variable holds
unchanged) is at most 256, so the read of the 257-entry table is in bounds. -/
theorem calculateReciprocalIndex_in_bounds (d : Nat) (_hd : d < 2 ^ 16) :
    calculateReciprocalIndex d = ((d &&& 0x7fff) + 0x40) >>> 7 ∧
      calculateReciprocalIndex d ≤ 256 ∧
      calculateReciprocalIndex d < UNSIGNED_NEWTOWN_RAPHSON_TABLE.length ∧
      ∃ e, UNSIGNED_NEWTOWN_RAPHSON_TABLE[calculateReciprocalIndex d]? = some e := by
  have hlen : UNSIGNED_NEWTOWN_RAPHSON_TABLE.length = 257 := by decide!
  have hidx := calculateReciprocalIndex_eq d
  have hle : calculateReciprocalIndex d ≤ 256 := by rw [hidx]; omega
  obtain ⟨e, he, _⟩ := table_lookup _ hle
  refine ⟨?_, hle, by rw [hlen]; omega, e, he⟩
  rw [hidx, and_7fff, Nat.shiftRight_eq_div_pow]

theorem calculateReciprocalIndex_in_bounds_witness :
    calculateReciprocalIndex 0xFFFF = ((0xFFFF &&& 0x7fff) + 0x40) >>> 7 ∧
      calculateReciprocalIndex 0xFFFF ≤ 256 ∧
      calculateReciprocalIndex 0xFFFF < UNSIGNED_NEWTOWN_RAPHSON_TABLE.length ∧
      ∃ e, UNSIGNED_NEWTOWN_RAPHSON_TABLE[calculateReciprocalIndex 0xFFFF]? = some e :=
  calculateReciprocalIndex_in_bounds 0xFFFF (by decide)

/-- C18. For every 16-bit divisor `d`, `calculateReciprocal(d)` depends only on
the low 15 bits of `d` (it equals `calculateReciprocal(d | 0x8000)`) and lies in
the closed range from `0x10000` to `0x20000`. -/
theorem calculateReciprocal_range (d : Nat) (hd : d < 2 ^ 16) :
    calculateReciprocal d = calculateReciprocal (d ||| 0x8000) ∧
      ∃ R, calculateReciprocal d = some R ∧ 0x10000 ≤ R ∧ R ≤ 0x20000 := by
  refine ⟨?_, calculateReciprocal_bounds d hd⟩
  rw [or_8000 d hd]
  exact calculateReciprocal_low_bits d hd

theorem calculateReciprocal_range_witness :
    calculateReciprocal 0x1234 = calculateReciprocal (0x1234 ||| 0x8000) ∧
      ∃ R, calculateReciprocal 0x1234 = some R ∧ 0x10000 ≤ R ∧ R ≤ 0x20000 :=
  calculateReciprocal_range 0x1234 (by decide)

/-- C19. `divide` is monotone in the numerator: for every 16-bit divisor `d` and
all 16-bit numerators `n1 ≤ n2`, `divide(n1, d) ≤ divide(n2, d)`. -/
theorem divide_mono_numerator (n1 n2 d : Nat) (hd : d < 2 ^ 16) (h12 : n1 ≤ n2)
    (hn2 : n2 < 2 ^ 16) :
    ∃ r1 r2, divide n1 d = some r1 ∧ divide n2 d = some r2 ∧ r1 ≤ r2 := by
  obtain ⟨s, R, _, hs, hR, _, _, hdiv1⟩ := divide_total_aux n1 d (by omega) hd
  obtain ⟨s2, R2, _, hs2, hR2, _, _, hdiv2⟩ := divide_total_aux n2 d hn2 hd
  rw [hs] at hs2
  cases hs2
  rw [hR] at hR2
  cases hR2
  refine ⟨_, _, hdiv1, hdiv2, ?_⟩
  have hN : n1 * 2 ^ s * R ≤ n2 * 2 ^ s * R :=
    Nat.mul_le_mul_right _ (Nat.mul_le_mul_right _ h12)
  exact min_le_min (Nat.div_le_div_right (by omega)) le_rfl

theorem divide_mono_numerator_witness :
    ∃ r1 r2, divide 0x0100 0x0765 = some r1 ∧ divide 0x0101 0x0765 = some r2 ∧ r1 ≤ r2 :=
  divide_mono_numerator 0x0100 0x0101 0x0765 (by decide) (by decide) (by decide)

/-- C20. `divide` is invariant under doubling both operands: for every
`n ≤ 0x7FFF` and every `d` with `1 ≤ d ≤ 0x7FFF`, `divide(2*n, 2*d)` returns the
value `divide(n, d)` returns. -/
theorem divide_double (n d : Nat) (hn : n ≤ 0x7FFF) (hd1 : 1 ≤ d) (hd2 : d ≤ 0x7FFF) :
    ∃ r, divide n d = some r ∧ divide (2 * n) (2 * d) = some r := by
  obtain ⟨k, hk, hlo, hhi⟩ := exists_range d (by omega) (by omega)
  have hk14 : k ≤ 14 := by
    by_contra hc
    have : 2 ^ 15 ≤ 2 ^ k := Nat.pow_le_pow_right (by decide) (by omega)
    omega
  obtain ⟨R, hR, _, hdiv⟩ := divide_of_range n d k (by omega) hk hlo hhi
  obtain ⟨R2, hR2, _, hdiv2⟩ := divide_of_range (2 * n) (2 * d) (k + 1) (by omega) (by omega)
    (by rw [pow_succ]; omega) (by rw [pow_succ]; omega)
  have hp : 2 ^ (15 - k) = 2 * 2 ^ (15 - (k + 1)) := by
    have hk1 : 15 - k = 15 - (k + 1) + 1 := by omega
    rw [hk1, pow_succ]
    ring
  have hD : 2 * d * 2 ^ (15 - (k + 1)) = d * 2 ^ (15 - k) := by rw [hp]; ring
  have hN : 2 * n * 2 ^ (15 - (k + 1)) = n * 2 ^ (15 - k) := by rw [hp]; ring
  rw [hD, hR] at hR2
  cases hR2
  rw [hN] at hdiv2
  exact ⟨_, hdiv, hdiv2⟩

theorem divide_double_witness :
    ∃ r, divide 0x0123 0x0765 = some r ∧ divide (2 * 0x0123) (2 * 0x0765) = some r :=
  divide_double 0x0123 0x0765 (by decide) (by decide) (by decide)

theorem reciprocal_exact_facts (e x : Nat) (he : e ≤ 255) (hx1 : 32768 ≤ x) (hx2 : x ≤ 65535) :
    (((e : Int) + 257) * (131072 + (-(x : Int) * ((e : Int) + 257) + 128) / 256) + 128) / 256
        = (reciprocalNat e x : Int) ∧
      ∀ v ∈ ([(e : Int) + 257, (x : Int), -((e : Int) + 257),
          (x : Int) * -((e : Int) + 257), (x : Int) * -((e : Int) + 257) + 128,
          ((x : Int) * -((e : Int) + 257) + 128) / 256,
          131072 + ((x : Int) * -((e : Int) + 257) + 128) / 256,
          ((e : Int) + 257) * (131072 + ((x : Int) * -((e : Int) + 257) + 128) / 256),
          ((e : Int) + 257) * (131072 + ((x : Int) * -((e : Int) + 257) + 128) / 256) + 128,
          (((e : Int) + 257) * (131072 + ((x : Int) * -((e : Int) + 257) + 128) / 256) + 128)
            / 256] : List Int),
        -2147483648 ≤ v ∧ v < 2147483648 := by
  have hPle : x * (e + 257) ≤ 65535 * 512 := Nat.mul_le_mul hx2 (by omega)
  have hPge : 32768 * 257 ≤ x * (e + 257) := Nat.mul_le_mul hx1 (by omega)
  have hprod : (x : Int) * -((e : Int) + 257) = -((x * (e + 257) : Nat) : Int) := by
    push_cast; ring
  have hprod2 : -(x : Int) * ((e : Int) + 257) = -((x * (e + 257) : Nat) : Int) := by
    push_cast; ring
  have hrn : reciprocalNat e x
      = ((e + 257) * (131072 - (x * (e + 257) + 127) / 256) + 128) / 256 := rfl
  rw [hprod, hprod2, hrn]
  generalize x * (e + 257) = P at hPle hPge
  have hI : (131072 : Int) + (-(P : Int) + 128) / 256
      = ((131072 - (P + 127) / 256 : Nat) : Int) := by omega
  have hIle : 131072 - (P + 127) / 256 ≤ 131072 := by omega
  rw [hI]
  generalize 131072 - (P + 127) / 256 = I at hIle
  have hQle : (e + 257) * I ≤ 512 * 131072 := Nat.mul_le_mul (by omega) hIle
  have hq : ((e : Int) + 257) * (I : Int) = (((e + 257) * I : Nat) : Int) := by
    push_cast; ring
  rw [hq]
  generalize (e + 257) * I = Q at hQle
  refine ⟨by omega, ?_⟩
  intro v hv
  simp only [List.mem_cons, List.mem_singleton, List.not_mem_nil, or_false] at hv
  rcases hv with h | h | h | h | h | h | h | h | h | h <;> subst h <;> omega

/-- C14. For every 16-bit divisor no intermediate value of `calculateReciprocal`
leaves the range of `int32_t`, so the value computed with `int32_t` operations
equals the formula
`(factor * (0x20000 + floor((-(divisor | 0x8000) * factor + 0x80) / 256)) + 0x80) div 256`,
`factor = table[index] + 0x101`, evaluated over unbounded integers; and for
every 16-bit `n` and `d` neither the shift of the numerator nor the 64-bit
product `numeratorShifted * reciprocal + 0x8000` in `divide` wraps. -/
theorem calculateReciprocal_no_overflow (n d : Nat) (hn : n < 2 ^ 16) (hd : d < 2 ^ 16) :
    (∃ e R, UNSIGNED_NEWTOWN_RAPHSON_TABLE[calculateReciprocalIndex d]? = some e ∧
      (∀ v ∈ reciprocalIntermediates e d, -2 ^ 31 ≤ v ∧ v < 2 ^ 31) ∧
      calculateReciprocal d = some R ∧ calculateReciprocalExact d = some (R : Int)) ∧
    (∃ s R, calculateLeadingZeros 16 d = some s ∧
      calculateReciprocal ((d <<< s) % 2 ^ 16) = some R ∧
      n <<< s < 2 ^ 64 ∧ (n <<< s) % 2 ^ 64 * R + 0x8000 < 2 ^ 64) := by
  constructor
  · obtain ⟨e, he, hle, hR⟩ := calculateReciprocal_eq d hd
    rw [← calculateReciprocalIndex_eq] at he
    obtain ⟨hex, hrange⟩ :=
      reciprocal_exact_facts e (d % 0x8000 + 0x8000) hle (by omega) (by omega)
    refine ⟨e, _, he, ?_, hR, ?_⟩
    · intro v hv
      unfold reciprocalIntermediates at hv
      rw [or_8000 d hd] at hv
      have := hrange v (by simpa using hv)
      norm_num
      exact this
    · unfold calculateReciprocalExact
      rw [he]
      simp only [or_8000 d hd]
      rw [← hex]
      simp
  · obtain ⟨s, R, hs, hclz, hR, _, hR2, _⟩ := divide_total_aux n d hn hd
    have hpow : 2 ^ s ≤ 2 ^ 16 := Nat.pow_le_pow_right (by decide) hs
    have hN : n * 2 ^ s < 2 ^ 16 * 2 ^ 16 :=
      Nat.mul_lt_mul_of_lt_of_le hn hpow (by positivity)
    have hNR : n * 2 ^ s * R ≤ 2 ^ 16 * 2 ^ 16 * 0x20000 :=
      Nat.mul_le_mul (Nat.le_of_lt hN) hR2
    refine ⟨s, R, hclz, hR, ?_, ?_⟩
    · rw [Nat.shiftLeft_eq]; omega
    · rw [Nat.shiftLeft_eq, Nat.mod_eq_of_lt (by omega)]; omega

theorem calculateReciprocal_no_overflow_witness :
    (∃ e R, UNSIGNED_NEWTOWN_RAPHSON_TABLE[calculateReciprocalIndex 0x0765]? = some e ∧
      (∀ v ∈ reciprocalIntermediates e 0x0765, -2 ^ 31 ≤ v ∧ v < 2 ^ 31) ∧
      calculateReciprocal 0x0765 = some R ∧ calculateReciprocalExact 0x0765 = some (R : Int)) ∧
    (∃ s R, calculateLeadingZeros 16 0x0765 = some s ∧
      calculateReciprocal ((0x0765 <<< s) % 2 ^ 16) = some R ∧
      0x1234 <<< s < 2 ^ 64 ∧ (0x1234 <<< s) % 2 ^ 64 * R + 0x8000 < 2 ^ 64) :=
  calculateReciprocal_no_overflow 0x1234 0x0765 (by decide) (by decide)

end Pscx
